import Mathlib

/-!
Shallow embedding of `src/components/EmployeeManager.js`: the roster store,
the import reconciler, the Secret Santa assignment engine (bulk and individual
draw), and the localStorage snapshot loader.  JavaScript strings are modelled
as Lean `String`, member ids as `Int` (results of `parseInt`), the assignment
map (a JS object with numeric keys) as an association list `List (Int × Int)`
in key-insertion order, and `Math.random`-derived indices as explicitly passed
natural numbers reduced modulo the relevant length.
-/

/-- Model of JavaScript `String.prototype.trim` on the character list:
drop leading whitespace, then drop trailing whitespace. -/
def trimChars (l : List Char) : List Char :=
  ((l.dropWhile Char.isWhitespace).reverse.dropWhile Char.isWhitespace).reverse

/-- Model of JavaScript `String.prototype.trim`. -/
def jsTrim (s : String) : String :=
  ⟨trimChars s.data⟩

/-- Model of JavaScript `String.prototype.toLowerCase` (character-wise
lowercasing, which on the ASCII identifiers at play agrees with JS). -/
def jsToLower (s : String) : String :=
  ⟨s.data.map Char.toLower⟩

/-- A roster member as stored in the `employees` state array. -/
structure Employee where
  id : Int
  empnid : String
  name : String
  interests : String
deriving DecidableEq, Repr, Inhabited

/-- A raw record as parsed back from the persisted JSON roster snapshot; every
field may be absent (JS `undefined`).  Ids are modelled as the `parseInt`
result. -/
structure RawEmp where
  id : Option Int
  empnid : Option String
  name : Option String
  interests : Option String
deriving DecidableEq, Repr, Inhabited

/-- Serialization of a stored member back into a raw record (JSON round trip). -/
def toRaw (e : Employee) : RawEmp :=
  ⟨some e.id, some e.empnid, some e.name, some e.interests⟩

/-- One step of the stable insertion used to model `sort((a, b) => a.id - b.id)`:
insert `e` after every element whose id is strictly smaller, before the first
element whose id is ≥ (so equal ids keep their original relative order). -/
def insertById (e : Employee) : List Employee → List Employee
  | [] => [e]
  | x :: xs => if x.id < e.id then x :: insertById e xs else e :: x :: xs

/-- Stable ascending sort by `id`, the model of the JS array sort. -/
def sortById : List Employee → List Employee
  | [] => []
  | x :: xs => insertById x (sortById xs)

/-- The filtering pass of the load-from-localStorage effect: keep records whose
`id`, `empnid` and `name` are truthy and whose lowercased (untrimmed) `empnid`
was not seen before; store the trimmed fields and the running maximum id. -/
def loadPass (seen : List String) : List RawEmp → (List Employee × Int)
  | [] => ([], 0)
  | r :: rs =>
    match r.id, r.empnid, r.name with
    | some n, some code, some nm =>
      if n ≠ 0 ∧ code ≠ "" ∧ nm ≠ "" ∧ ¬ seen.contains (jsToLower code) then
        let rest := loadPass (jsToLower code :: seen) rs
        (⟨n, jsTrim code, jsTrim nm,
            match r.interests with
            | some s => if s ≠ "" then jsTrim s else ""
            | none => ""⟩ :: rest.1,
         max n rest.2)
      else loadPass seen rs
    | _, _, _ => loadPass seen rs

/-- The load effect: filter and deduplicate the persisted records, sort the
survivors by ascending id, and raise the persisted last-id counter to the
maximum surviving id when that is larger. -/
def loadSnapshot (records : List RawEmp) (initialLastId : Int) :
    List Employee × Int :=
  let pass := loadPass [] records
  (sortById pass.1, if pass.2 > initialLastId then pass.2 else initialLastId)

/-- Maximum id occurring in a member list (0 when empty), the value tracked by
the `maxId` variable of the load effect. -/
def foldMax (l : List Employee) : Int :=
  l.foldr (fun e m => max e.id m) 0

/-- Model of the JS object update `{ ...prev, [k]: v }`: replace the value at
an existing key in place, otherwise append the new binding. -/
def setAssign : List (Int × Int) → Int → Int → List (Int × Int)
  | [], k, v => [(k, v)]
  | p :: m, k, v => if p.1 = k then (k, v) :: m else p :: setAssign m k v

/-- `Object.values` of the assignment map. -/
def assignedValues (m : List (Int × Int)) : List Int :=
  m.map Prod.snd

/-- The assignment-map cleanup inside `handleDelete`: drop the entry keyed by
the deleted id, then drop every entry whose value is the deleted id. -/
def removeAssignmentsFor (m : List (Int × Int)) (d : Int) : List (Int × Int) :=
  (m.filter (fun p => p.1 != d)).filter (fun p => p.2 != d)

/-- The parallel destructuring swap `[l[i], l[j]] = [l[j], l[i]]` inside the
Fisher-Yates loop. -/
def swapL (l : List Employee) (i j : Nat) : List Employee :=
  let vi := l.getD i default
  let vj := l.getD j default
  (l.set i vj).set j vi

/-- The Fisher-Yates loop body, iterating `i` from the last index down to 1;
`js i` models the `Math.random()` call of iteration `i`, reduced modulo
`i + 1` so that the swapped-in index ranges over `0..i` exactly as
`Math.floor(Math.random() * (i + 1))` does. -/
def fyAux (js : Nat → Nat) : List Employee → Nat → List Employee
  | l, 0 => l
  | l, i + 1 => fyAux js (swapL l (i + 1) (js (i + 1) % (i + 2))) i

/-- One full Fisher-Yates shuffle of the list. -/
def fisherYates (l : List Employee) (js : Nat → Nat) : List Employee :=
  fyAux js l (l.length - 1)

/-- The inner retry loop of the pairing step: starting from `idx`, advance
circularly modulo `n` while the member at the shuffled position has id `eid`,
for at most `fuel` steps (the code bounds `retries` by the roster length). -/
def scanIdx (eid : Int) (shuffled : List Employee) (n : Nat) :
    Nat → Nat → Nat
  | 0, idx => idx
  | fuel + 1, idx =>
    if (shuffled.getD idx default).id = eid then
      scanIdx eid shuffled n fuel ((idx + 1) % n)
    else idx

/-- Pair original position `i` (for each `i` in the index list) with the
scanned shuffled position; `none` when some position is still a fixed point
after the bounded scan (the `valid = false` branch). -/
def buildAttemptAux (employees shuffled : List Employee) :
    List Nat → Option (List (Int × Int))
  | [] => some []
  | i :: is =>
    let eid := (employees.getD i default).id
    let j := scanIdx eid shuffled employees.length employees.length i
    let tid := (shuffled.getD j default).id
    if eid = tid then none
    else
      match buildAttemptAux employees shuffled is with
      | none => none
      | some rest => some ((eid, tid) :: rest)

/-- One pairing attempt of the bulk draw over all original positions. -/
def buildAttempt (employees shuffled : List Employee) :
    Option (List (Int × Int)) :=
  buildAttemptAux employees shuffled (List.range employees.length)

/-- The shuffled array as it stands at attempt `k`: the initial shuffle for
`k = 0`, and each retry reshuffles the previously shuffled array in place.
`randoms k` supplies the random draws of attempt `k`'s shuffle. -/
def shuffleSeq (employees : List Employee) (randoms : Nat → Nat → Nat) :
    Nat → List Employee
  | 0 => fisherYates employees (randoms 0)
  | k + 1 => fisherYates (shuffleSeq employees randoms k) (randoms (k + 1))

/-- The bounded retry loop (`attempts < maxAttempts`): return the first valid
attempt's assignment map, `none` when the ceiling is reached. -/
def drawAttempts (employees : List Employee) (randoms : Nat → Nat → Nat) :
    Nat → Nat → Option (List (Int × Int))
  | _, 0 => none
  | k, fuel + 1 =>
    match buildAttempt employees (shuffleSeq employees randoms k) with
    | some a => some a
    | none => drawAttempts employees randoms (k + 1) fuel

/-- `handleSecretSantaDraw`: fail (`none`) with fewer than 2 members,
otherwise run up to 100 shuffle-and-pair attempts; a `some` result replaces
the whole assignment map. -/
def handleSecretSantaDraw (employees : List Employee)
    (randoms : Nat → Nat → Nat) : Option (List (Int × Int)) :=
  if employees.length < 2 then none
  else drawAttempts employees randoms 0 100

/-- The candidate pool of `handleIndividualDraw`: every member that is not the
drawer and does not already appear as a value of the assignment map. -/
def computePool (employees : List Employee) (m : List (Int × Int))
    (drawerId : Int) : List Employee :=
  employees.filter (fun e => e.id != drawerId && !((assignedValues m).contains e.id))

/-- A pending individual draw: the drawer and the candidate pool captured when
the slot-selection overlay was opened. -/
structure PendingDraw where
  drawer : Employee
  slots : List Employee
deriving DecidableEq, Repr, Inhabited

/-- The observable outcome of `handleSlotSelect`: the remembered clicked slot,
the updated assignment map, and the employee revealed in the popup. -/
structure SlotSelectOutcome where
  selectedSlot : Nat
  assignments : List (Int × Int)
  revealed : Employee
deriving DecidableEq, Repr, Inhabited

/-- `handleSlotSelect`: the clicked `slotIndex` is only remembered for the UI;
the committed target is `availableSlots[Math.floor(Math.random() * length)]`,
modelled as index `r % slots.length`. -/
def handleSlotSelect (p : PendingDraw) (m : List (Int × Int))
    (slotIndex : Nat) (r : Nat) : SlotSelectOutcome :=
  let assigned := p.slots.getD (r % p.slots.length) default
  { selectedSlot := slotIndex
    assignments := setAssign m p.drawer.id assigned.id
    revealed := assigned }

/-- One whole individual draw performed atomically (pool computation followed
by the random selection and the commit); a failed draw (`empty pool`) leaves
the map unchanged, as the code only sets an error message. -/
def drawStep (employees : List Employee) (m : List (Int × Int))
    (drawerId : Int) (r : Nat) : List (Int × Int) :=
  let pool := computePool employees m drawerId
  if pool.isEmpty then m
  else setAssign m drawerId ((pool.getD (r % pool.length) default).id)

/-- A sequence of individual draws, each given as drawer id and random draw. -/
def runDraws (employees : List Employee) (m : List (Int × Int)) :
    List (Int × Nat) → List (Int × Int)
  | [] => m
  | (d, r) :: ds => runDraws employees (drawStep employees m d r) ds

/-- Component state relevant to the in-flight individual draw. -/
structure AppState where
  employees : List Employee
  assignments : List (Int × Int)
  pending : Option PendingDraw
deriving DecidableEq, Repr, Inhabited

/-- `handleIndividualDraw`: error out (state unchanged) when the pool is
empty, otherwise capture the drawer and the pool and open the overlay.  The
drawer lookup is modelled only for ids present in the roster, the sole way the
code is invoked. -/
def handleIndividualDraw (st : AppState) (eid : Int) : AppState :=
  let pool := computePool st.employees st.assignments eid
  if pool.isEmpty then st
  else
    match st.employees.find? (fun e => e.id == eid) with
    | none => st
    | some e => { st with pending := some ⟨e, pool⟩ }

/-- `handleDelete`: remove the member from the roster and cascade into the
assignment map.  The pending draw state is left untouched by the code. -/
def handleDelete (st : AppState) (d : Int) : AppState :=
  { st with
      employees := st.employees.filter (fun e => e.id != d)
      assignments := removeAssignmentsFor st.assignments d }

/-- The deferred commit of `handleSlotSelect` acting on the component state:
it writes the captured drawer/candidate pair into the assignment map without
consulting the current roster. -/
def slotSelectCommit (st : AppState) (slotIndex r : Nat) : AppState :=
  match st.pending with
  | none => st
  | some p =>
    if p.slots.isEmpty then st
    else
      { st with
          assignments := (handleSlotSelect p st.assignments slotIndex r).assignments
          pending := none }

/-- The create/edit form fields. -/
structure FormData where
  empnid : String
  name : String
  interests : String
deriving DecidableEq, Repr, Inhabited

/-- `validateForm`: require non-empty trimmed id and name, and a
case-insensitively fresh id (against every member when creating, against every
other member when editing `editingId`). -/
def validateForm (employees : List Employee) (editingId : Option Int)
    (f : FormData) : Bool :=
  let te := jsTrim f.empnid
  let tn := jsTrim f.name
  if te = "" then false
  else if tn = "" then false
  else
    match editingId with
    | none => !(employees.any (fun e => jsToLower e.empnid == jsToLower te))
    | some eid =>
      !(employees.any (fun e => jsToLower e.empnid == jsToLower te && e.id != eid))

/-- `handleCreate`: validate, allocate `lastId + 1`, re-check uniqueness, and
append the trimmed record; `none` models an early return with an error. -/
def handleCreate (employees : List Employee) (lastId : Int) (f : FormData) :
    Option (List Employee × Int) :=
  if validateForm employees none f then
    let newEmployee : Employee :=
      ⟨lastId + 1, jsTrim f.empnid, jsTrim f.name, jsTrim f.interests⟩
    if employees.any (fun e => jsToLower e.empnid == jsToLower newEmployee.empnid)
    then none
    else some (employees ++ [newEmployee], lastId + 1)
  else none

/-- `handleUpdate`: validate against the other members, keep the original id,
and replace the edited record in place with the trimmed fields. -/
def handleUpdate (employees : List Employee) (editingId : Int)
    (f : FormData) : Option (List Employee) :=
  if validateForm employees (some editingId) f then
    match employees.find? (fun e => e.id == editingId) with
    | none => none
    | some old =>
      let updatedEmployee : Employee :=
        ⟨old.id, jsTrim f.empnid, jsTrim f.name, jsTrim f.interests⟩
      if employees.any (fun e =>
          jsToLower e.empnid == jsToLower updatedEmployee.empnid && e.id != editingId)
      then none
      else some (employees.map (fun e => if e.id == editingId then updatedEmployee else e))
  else none

/-- A data row of the imported sheet: the `String(cell)` contents of the id,
name and interests columns (`""` for a missing or falsy cell). -/
structure Row where
  empnid : String
  name : String
  interests : String
deriving DecidableEq, Repr, Inhabited

/-- A rejected import row as pushed onto the `duplicates` array. -/
structure Dup where
  rowNum : Nat
  empnid : String
  name : String
  reason : String
deriving DecidableEq, Repr, Inhabited

/-- Rejection reason for a duplicate id within the imported file itself. -/
def inFileReason : String := "Duplicate Employee ID in Excel file"

/-- Rejection reason for an id already present in the roster. -/
def inSystemReason : String := "Employee ID already exists in system"

/-- The loop state of `handleExcelImport`'s row scan: seen in-file ids, the
running id counter, and the accepted and rejected rows in order. -/
structure ImpState where
  seen : List String
  curId : Int
  accepted : List Employee
  duplicates : List Dup
deriving DecidableEq, Repr, Inhabited

/-- One iteration of the row scan at sheet index `idx` (the header is index 0):
skip rows with empty trimmed id or name, reject in-file duplicates first, then
roster duplicates, otherwise accept with the next provisional id. -/
def importStep (existingLower : List String) (idx : Nat) (st : ImpState)
    (r : Row) : ImpState :=
  let empnid := jsTrim r.empnid
  let nm := jsTrim r.name
  if empnid = "" || nm = "" then st
  else
    let key := jsToLower empnid
    if st.seen.contains key then
      { st with duplicates := st.duplicates ++ [⟨idx + 1, empnid, nm, inFileReason⟩] }
    else if existingLower.contains key then
      { st with duplicates := st.duplicates ++ [⟨idx + 1, empnid, nm, inSystemReason⟩] }
    else
      { st with
          seen := st.seen ++ [key]
          curId := st.curId + 1
          accepted := st.accepted ++ [⟨st.curId + 1, empnid, nm, jsTrim r.interests⟩] }

/-- The row scan over the data rows, threading the sheet index. -/
def importFold (existingLower : List String) :
    Nat → ImpState → List Row → ImpState
  | _, st, [] => st
  | idx, st, r :: rs => importFold existingLower (idx + 1) (importStep existingLower idx st r) rs

/-- The reconciliation part of `handleExcelImport`: partition the data rows
(starting at sheet index 1) against the current roster and `lastId`. -/
def importRows (employees : List Employee) (lastId : Int) (rows : List Row) :
    ImpState :=
  importFold (employees.map (fun e => jsToLower e.empnid)) 1 ⟨[], lastId, [], []⟩ rows

/-- Roster-level component state touched by the import flow. -/
structure RosterState where
  employees : List Employee
  lastId : Int
  pendingImport : List Employee
  showImportPopup : Bool
deriving DecidableEq, Repr, Inhabited

/-- `handleExcelImport` after parsing: when duplicates were found, stash the
accepted rows, advance `lastId`, and open the popup; with no duplicates and a
non-empty accepted list, insert immediately; otherwise only an error is set. -/
def handleExcelImport (st : RosterState) (rows : List Row) : RosterState :=
  let res := importRows st.employees st.lastId rows
  if res.duplicates.isEmpty then
    if res.accepted.isEmpty then st
    else { st with employees := st.employees ++ res.accepted, lastId := res.curId }
  else
    { st with
        lastId := res.curId
        pendingImport := res.accepted
        showImportPopup := true }

/-- `handleImportConfirm`: append the stashed rows and clear the popup state;
`lastId` is not touched here. -/
def handleImportConfirm (st : RosterState) : RosterState :=
  { st with
      employees := st.employees ++ st.pendingImport
      pendingImport := []
      showImportPopup := false }

theorem dropWhile_idem (p : α → Bool) (l : List α) :
    (l.dropWhile p).dropWhile p = l.dropWhile p := by
  induction l with
  | nil => rfl
  | cons a l ih =>
    by_cases h : p a
    · simp [List.dropWhile, h, ih]
    · simp [List.dropWhile, h]

theorem head?_dropWhile_false (p : α → Bool) (l : List α) (x : α)
    (h : (l.dropWhile p).head? = some x) : p x = false := by
  induction l with
  | nil => simp [List.dropWhile] at h
  | cons a l ih =>
    by_cases hp : p a
    · exact ih (by simpa [List.dropWhile, hp] using h)
    · simp [List.dropWhile, hp] at h
      subst h
      simpa using hp

theorem dropWhile_eq_self_of_head? (p : α → Bool) (l : List α)
    (h : ∀ x, l.head? = some x → p x = false) : l.dropWhile p = l := by
  cases l with
  | nil => rfl
  | cons a l => simp [List.dropWhile, h a rfl]

theorem trimChars_idem (l : List Char) : trimChars (trimChars l) = trimChars l := by
  have hA : (trimChars l).dropWhile Char.isWhitespace = trimChars l := by
    apply dropWhile_eq_self_of_head?
    intro x hx
    rw [show trimChars l
        = ((l.dropWhile Char.isWhitespace).reverse.dropWhile Char.isWhitespace).reverse
        from rfl, List.head?_reverse] at hx
    have hrne : (l.dropWhile Char.isWhitespace).reverse.dropWhile Char.isWhitespace ≠ [] := by
      intro h
      rw [h] at hx
      simp at hx
    have hm : (l.dropWhile Char.isWhitespace).reverse.getLast? =
        ((l.dropWhile Char.isWhitespace).reverse.dropWhile Char.isWhitespace).getLast? := by
      conv_lhs => rw [← List.takeWhile_append_dropWhile Char.isWhitespace
        (l.dropWhile Char.isWhitespace).reverse]
      exact List.getLast?_append_of_ne_nil _ hrne
    rw [← hm, List.getLast?_reverse] at hx
    exact head?_dropWhile_false Char.isWhitespace l x hx
  have hB : ((l.dropWhile Char.isWhitespace).reverse.dropWhile Char.isWhitespace).dropWhile
      Char.isWhitespace = (l.dropWhile Char.isWhitespace).reverse.dropWhile Char.isWhitespace :=
    dropWhile_idem _ _
  show ((((trimChars l).dropWhile Char.isWhitespace).reverse).dropWhile Char.isWhitespace).reverse
      = trimChars l
  rw [hA]
  show ((((l.dropWhile Char.isWhitespace).reverse.dropWhile
      Char.isWhitespace).reverse.reverse).dropWhile Char.isWhitespace).reverse = trimChars l
  rw [List.reverse_reverse, hB]
  rfl

theorem jsTrim_idem (s : String) : jsTrim (jsTrim s) = jsTrim s :=
  congrArg String.mk (trimChars_idem s.data)

/-- C1: the spec claims every successful bulk draw yields a total bijection
with no fixed points.  On the 3-member roster with ids 1, 2, 3, the shuffle
that Fisher-Yates produces from random picks j = 2 (a self-swap) then j = 0
is `[2, 1, 3]` — a genuine permutation of the roster — and the draw accepts
the attempt and commits `{1 ↦ 2, 2 ↦ 1, 3 ↦ 2}`: member 2 is the target of
two drawers and member 3 of none, because the fixed-point scan reuses the
conflicting shuffled entry instead of swapping it into place. -/
theorem bulkDraw_commits_noninjective_map :
    handleSecretSantaDraw [⟨1, "E1", "A", ""⟩, ⟨2, "E2", "B", ""⟩, ⟨3, "E3", "C", ""⟩]
        (fun _ i => if i = 2 then 2 else 0) = some [(1, 2), (2, 1), (3, 2)] ∧
    (fisherYates [⟨1, "E1", "A", ""⟩, ⟨2, "E2", "B", ""⟩, ⟨3, "E3", "C", ""⟩]
        ((fun _ i => if i = 2 then 2 else 0) 0)).Perm
      [⟨1, "E1", "A", ""⟩, ⟨2, "E2", "B", ""⟩, ⟨3, "E3", "C", ""⟩] ∧
    ¬ (assignedValues [(1, 2), (2, 1), (3, 2)]).Nodup :=
  ⟨by decide, by decide, by decide⟩

/-- C7: deleting member `d` removes from the assignment map exactly the entry
keyed by `d` and every entry whose value is `d`, so afterwards `d` occurs in
the map neither as a key nor as a value. -/
theorem delete_cascades_into_assignments :
    ∀ (m : List (Int × Int)) (d : Int),
      (∀ p ∈ removeAssignmentsFor m d, p.1 ≠ d ∧ p.2 ≠ d ∧ p ∈ m) ∧
      (∀ p ∈ m, p.1 ≠ d → p.2 ≠ d → p ∈ removeAssignmentsFor m d) ∧
      d ∉ (removeAssignmentsFor m d).map Prod.fst ∧
      d ∉ assignedValues (removeAssignmentsFor m d) := by
  intro m d
  refine ⟨?_, ?_, ?_, ?_⟩
  · intro p hp
    simp only [removeAssignmentsFor, List.mem_filter, bne_iff_ne, ne_eq] at hp
    exact ⟨hp.1.2, hp.2, hp.1.1⟩
  · intro p hp h1 h2
    simp only [removeAssignmentsFor, List.mem_filter, bne_iff_ne, ne_eq]
    exact ⟨⟨hp, h1⟩, h2⟩
  · intro hd
    rcases List.mem_map.1 hd with ⟨p, hp, hpd⟩
    simp only [removeAssignmentsFor, List.mem_filter, bne_iff_ne, ne_eq] at hp
    exact hp.1.2 hpd
  · intro hd
    rcases List.mem_map.1 hd with ⟨p, hp, hpd⟩
    simp only [removeAssignmentsFor, List.mem_filter, bne_iff_ne, ne_eq] at hp
    exact hp.2 hpd

/-- C9: the committed target and resulting assignment map of a slot selection
do not depend on which slot index was clicked; the clicked index only feeds
the remembered `selectedSlot` UI state, while the revealed member is the
uniform random pick over the captured pool. -/
theorem slotSelect_target_independent_of_slot (p : PendingDraw)
    (m : List (Int × Int)) (r i j : Nat) :
    (handleSlotSelect p m i r).assignments = (handleSlotSelect p m j r).assignments ∧
    (handleSlotSelect p m i r).revealed = (handleSlotSelect p m j r).revealed :=
  ⟨rfl, rfl⟩

/-- C3 counterexample: with a roster already containing `E2` and the imported
batch `[E2/X, E3/Y]`, the reconciliation step itself (before any confirm)
already advances the next-id counter from 1 to 2, refuting the claim that only
the confirm operation advances the counter. -/
theorem excelImport_advances_counter_before_confirm :
    (handleExcelImport ⟨[⟨1, "E2", "Z", ""⟩], 1, [], false⟩
        [⟨"E2", "X", ""⟩, ⟨"E3", "Y", ""⟩]).lastId ≠
      (⟨[⟨1, "E2", "Z", ""⟩], 1, [], false⟩ : RosterState).lastId := by
  decide

/-- C3 amended: when the batch contains duplicates, reconciliation leaves the
roster members unchanged but already advances `lastId` over the accepted rows
and stashes them; the confirm step then only appends the stashed rows, without
touching the counter further. -/
theorem excelImport_frame_effect (st : RosterState) (rows : List Row)
    (h : ¬ (importRows st.employees st.lastId rows).duplicates.isEmpty) :
    (handleExcelImport st rows).employees = st.employees ∧
    (handleExcelImport st rows).lastId = (importRows st.employees st.lastId rows).curId ∧
    (handleExcelImport st rows).pendingImport = (importRows st.employees st.lastId rows).accepted ∧
    (handleImportConfirm (handleExcelImport st rows)).employees =
      st.employees ++ (importRows st.employees st.lastId rows).accepted ∧
    (handleImportConfirm (handleExcelImport st rows)).lastId =
      (importRows st.employees st.lastId rows).curId := by
  unfold handleExcelImport handleImportConfirm
  rw [if_neg h]
  simp

/-- Witness for the amended C3 theorem at the concrete duplicate batch. -/
theorem excelImport_frame_effect_witness :
    ¬ (importRows [⟨1, "E2", "Z", ""⟩] 1 [⟨"E2", "X", ""⟩, ⟨"E3", "Y", ""⟩]).duplicates.isEmpty ∧
    ((handleExcelImport ⟨[⟨1, "E2", "Z", ""⟩], 1, [], false⟩
        [⟨"E2", "X", ""⟩, ⟨"E3", "Y", ""⟩]).employees = [⟨1, "E2", "Z", ""⟩] ∧
      (handleExcelImport ⟨[⟨1, "E2", "Z", ""⟩], 1, [], false⟩
        [⟨"E2", "X", ""⟩, ⟨"E3", "Y", ""⟩]).lastId =
        (importRows [⟨1, "E2", "Z", ""⟩] 1 [⟨"E2", "X", ""⟩, ⟨"E3", "Y", ""⟩]).curId ∧
      (handleExcelImport ⟨[⟨1, "E2", "Z", ""⟩], 1, [], false⟩
        [⟨"E2", "X", ""⟩, ⟨"E3", "Y", ""⟩]).pendingImport =
        (importRows [⟨1, "E2", "Z", ""⟩] 1 [⟨"E2", "X", ""⟩, ⟨"E3", "Y", ""⟩]).accepted ∧
      (handleImportConfirm (handleExcelImport ⟨[⟨1, "E2", "Z", ""⟩], 1, [], false⟩
        [⟨"E2", "X", ""⟩, ⟨"E3", "Y", ""⟩])).employees =
        [⟨1, "E2", "Z", ""⟩] ++ (importRows [⟨1, "E2", "Z", ""⟩] 1
          [⟨"E2", "X", ""⟩, ⟨"E3", "Y", ""⟩]).accepted ∧
      (handleImportConfirm (handleExcelImport ⟨[⟨1, "E2", "Z", ""⟩], 1, [], false⟩
        [⟨"E2", "X", ""⟩, ⟨"E3", "Y", ""⟩])).lastId =
        (importRows [⟨1, "E2", "Z", ""⟩] 1 [⟨"E2", "X", ""⟩, ⟨"E3", "Y", ""⟩]).curId) :=
  ⟨by decide, excelImport_frame_effect ⟨[⟨1, "E2", "Z", ""⟩], 1, [], false⟩
    [⟨"E2", "X", ""⟩, ⟨"E3", "Y", ""⟩] (by decide)⟩

/-- C4 counterexample: two persisted records whose identifiers `"a "` and
`"a"` differ only by trailing whitespace both survive the first load (the
dedup key is the untrimmed identifier) but are stored trimmed, so the second
load drops the later record — reloading the load's own output is not a no-op. -/
theorem loadSnapshot_not_idempotent :
    loadSnapshot ((loadSnapshot
        [⟨some 1, some "a ", some "X", none⟩, ⟨some 2, some "a", some "Y", none⟩] 0).1.map toRaw)
      (loadSnapshot
        [⟨some 1, some "a ", some "X", none⟩, ⟨some 2, some "a", some "Y", none⟩] 0).2 ≠
    loadSnapshot
      [⟨some 1, some "a ", some "X", none⟩, ⟨some 2, some "a", some "Y", none⟩] 0 := by
  decide

/-- C10 counterexample: a persisted record whose identifier is whitespace
passes the pre-trim truthiness check of the snapshot load and is stored with
an empty `empnid`, refuting the claim that every stored member has a non-empty
identifier. -/
theorem loadSnapshot_stores_empty_empnid :
    loadSnapshot [⟨some 1, some "  ", some "A", none⟩] 0 = ([⟨1, "", "A", ""⟩], 1) := by
  decide

/-- C8 counterexample: start an individual draw for member 1 (pool `[member 2]`),
delete member 1 while the selection is pending, then commit the selection: the
drawer is no longer in the roster, yet the commit still mutates the assignment
map — there is no `StaleDraw` re-validation. -/
theorem slotSelect_commits_after_drawer_deleted :
    (1 : Int) ∉ ((handleDelete (handleIndividualDraw
        ⟨[⟨1, "E1", "A", ""⟩, ⟨2, "E2", "B", ""⟩], [], none⟩ 1) 1).employees.map Employee.id) ∧
    (slotSelectCommit (handleDelete (handleIndividualDraw
        ⟨[⟨1, "E1", "A", ""⟩, ⟨2, "E2", "B", ""⟩], [], none⟩ 1) 1) 0 0).assignments ≠
      (handleDelete (handleIndividualDraw
        ⟨[⟨1, "E1", "A", ""⟩, ⟨2, "E2", "B", ""⟩], [], none⟩ 1) 1).assignments :=
  ⟨by decide, by decide⟩

theorem fisherYates_pair (A B : Employee) (js : Nat → Nat) :
    fisherYates [A, B] js = [A, B] ∨ fisherYates [A, B] js = [B, A] := by
  have h : fisherYates [A, B] js = swapL [A, B] 1 (js 1 % 2) := rfl
  rcases Nat.mod_two_eq_zero_or_one (js 1) with h0 | h0 <;> rw [h, h0]
  · right; rfl
  · left; rfl

theorem buildAttempt_pair_id (A B : Employee) (h : A.id ≠ B.id) :
    buildAttempt [A, B] [A, B] = some [(A.id, B.id), (B.id, A.id)] := by
  show buildAttemptAux [A, B] [A, B] [0, 1] = some [(A.id, B.id), (B.id, A.id)]
  simp [buildAttemptAux, scanIdx, h, Ne.symm h]

theorem buildAttempt_pair_swap (A B : Employee) (h : A.id ≠ B.id) :
    buildAttempt [A, B] [B, A] = some [(A.id, B.id), (B.id, A.id)] := by
  show buildAttemptAux [A, B] [B, A] [0, 1] = some [(A.id, B.id), (B.id, A.id)]
  simp [buildAttemptAux, scanIdx, h, Ne.symm h]

/-- C5: on a roster of exactly two members with distinct ids, the bulk draw
succeeds on its very first attempt for every possible sequence of random
shuffle picks, and always commits the unique derangement `A ↦ B, B ↦ A`. -/
theorem bulkDraw_two_deterministic (A B : Employee) (js : Nat → Nat → Nat)
    (h : A.id ≠ B.id) :
    handleSecretSantaDraw [A, B] js = some [(A.id, B.id), (B.id, A.id)] := by
  have hlen : ¬ ([A, B].length < 2) := by simp
  have hd : handleSecretSantaDraw [A, B] js = drawAttempts [A, B] js 0 100 := by
    unfold handleSecretSantaDraw
    rw [if_neg hlen]
  have hstep : drawAttempts [A, B] js 0 100 =
      match buildAttempt [A, B] (fisherYates [A, B] (js 0)) with
      | some a => some a
      | none => drawAttempts [A, B] js 1 99 := rfl
  rw [hd, hstep]
  rcases fisherYates_pair A B (js 0) with hf | hf <;> rw [hf]
  · rw [buildAttempt_pair_id A B h]
  · rw [buildAttempt_pair_swap A B h]

/-- Witness for the 2-member bulk-draw theorem at a concrete roster and a
concrete random stream. -/
theorem bulkDraw_two_deterministic_witness :
    ((⟨1, "E1", "A", ""⟩ : Employee).id ≠ (⟨2, "E2", "B", ""⟩ : Employee).id) ∧
    handleSecretSantaDraw [⟨1, "E1", "A", ""⟩, ⟨2, "E2", "B", ""⟩] (fun _ _ => 0) =
      some [(1, 2), (2, 1)] :=
  ⟨by decide, bulkDraw_two_deterministic ⟨1, "E1", "A", ""⟩ ⟨2, "E2", "B", ""⟩
    (fun _ _ => 0) (by decide)⟩

theorem getD_mem {α : Type} (l : List α) : ∀ (i : Nat) (d : α), i < l.length → l.getD i d ∈ l := by
  induction l with
  | nil => intro i d h; simp at h
  | cons a l ih =>
    intro i d h
    cases i with
    | zero => simp [List.getD]
    | succ i =>
      have h' : i < l.length := by simpa using h
      have hmem := ih i d h'
      simpa [List.getD] using Or.inr (by simpa [List.getD] using hmem)

theorem mem_computePool (employees : List Employee) (m : List (Int × Int)) (d : Int)
    (e : Employee) (he : e ∈ computePool employees m d) :
    e.id ≠ d ∧ e.id ∉ assignedValues m := by
  rw [computePool, List.mem_filter] at he
  have hcond := he.2
  simp only [Bool.and_eq_true, bne_iff_ne, ne_eq, Bool.not_eq_true'] at hcond
  refine ⟨hcond.1, fun hmem => ?_⟩
  have hc : (assignedValues m).contains e.id = true := by
    simpa [List.contains] using List.elem_iff.2 hmem
  rw [hcond.2] at hc
  cases hc

theorem drawStep_fresh (employees : List Employee) (m : List (Int × Int))
    (d : Int) (r : Nat) (hpool : computePool employees m d ≠ []) :
    ∃ t, drawStep employees m d r = setAssign m d t ∧ t ≠ d ∧
      t ∉ assignedValues m := by
  have hlen : 0 < (computePool employees m d).length := List.length_pos.2 hpool
  have hidx : r % (computePool employees m d).length < (computePool employees m d).length :=
    Nat.mod_lt _ hlen
  have hmem := getD_mem (computePool employees m d) (r % (computePool employees m d).length)
    default hidx
  have hprop := mem_computePool employees m d _ hmem
  refine ⟨((computePool employees m d).getD (r % (computePool employees m d).length) default).id,
    ?_, hprop.1, hprop.2⟩
  rw [drawStep]
  rw [if_neg (by simpa [List.isEmpty_iff] using hpool)]

theorem mem_setAssign (m : List (Int × Int)) (k v : Int) :
    ∀ p ∈ setAssign m k v, p = (k, v) ∨ p ∈ m := by
  induction m with
  | nil => intro p hp; simpa [setAssign] using hp
  | cons q m ih =>
    intro p hp
    by_cases hq : q.1 = k
    · rw [setAssign, if_pos hq] at hp
      rcases List.mem_cons.1 hp with h | h
      · exact Or.inl h
      · exact Or.inr (List.mem_cons_of_mem q h)
    · rw [setAssign, if_neg hq] at hp
      rcases List.mem_cons.1 hp with h | h
      · exact Or.inr (h ▸ List.mem_cons_self q m)
      · rcases ih p h with h' | h'
        · exact Or.inl h'
        · exact Or.inr (List.mem_cons_of_mem q h')

theorem val_mem_setAssign (m : List (Int × Int)) (k v : Int) :
    ∀ x ∈ assignedValues (setAssign m k v), x = v ∨ x ∈ assignedValues m := by
  intro x hx
  rcases List.mem_map.1 hx with ⟨p, hp, hpx⟩
  rcases mem_setAssign m k v p hp with h | h
  · left; rw [← hpx, h]
  · right; exact hpx ▸ List.mem_map_of_mem Prod.snd h

theorem key_mem_setAssign (m : List (Int × Int)) (k v : Int) :
    ∀ x ∈ (setAssign m k v).map Prod.fst, x = k ∨ x ∈ m.map Prod.fst := by
  intro x hx
  rcases List.mem_map.1 hx with ⟨p, hp, hpx⟩
  rcases mem_setAssign m k v p hp with h | h
  · left; rw [← hpx, h]
  · right; exact hpx ▸ List.mem_map_of_mem Prod.fst h

theorem keys_setAssign_nodup (m : List (Int × Int)) (k v : Int)
    (h : (m.map Prod.fst).Nodup) : ((setAssign m k v).map Prod.fst).Nodup := by
  induction m with
  | nil => simp [setAssign]
  | cons q m ih =>
    rw [List.map_cons, List.nodup_cons] at h
    by_cases hq : q.1 = k
    · rw [setAssign, if_pos hq, List.map_cons, List.nodup_cons]
      exact ⟨hq ▸ h.1, h.2⟩
    · rw [setAssign, if_neg hq, List.map_cons, List.nodup_cons]
      refine ⟨fun hmem => ?_, ih h.2⟩
      rcases key_mem_setAssign m k v q.1 hmem with h' | h'
      · exact hq h'
      · exact h.1 h'

theorem vals_setAssign_nodup (m : List (Int × Int)) (k v : Int)
    (hkeys : (m.map Prod.fst).Nodup) (hvals : (assignedValues m).Nodup)
    (hv : v ∉ assignedValues m) : (assignedValues (setAssign m k v)).Nodup := by
  induction m with
  | nil => simp [setAssign, assignedValues]
  | cons q m ih =>
    rw [List.map_cons, List.nodup_cons] at hkeys
    rw [show assignedValues (q :: m) = q.2 :: assignedValues m from rfl,
      List.nodup_cons] at hvals
    rw [show assignedValues (q :: m) = q.2 :: assignedValues m from rfl,
      List.mem_cons, not_or] at hv
    by_cases hq : q.1 = k
    · rw [setAssign, if_pos hq]
      rw [show assignedValues ((k, v) :: m) = v :: assignedValues m from rfl,
        List.nodup_cons]
      exact ⟨hv.2, hvals.2⟩
    · rw [setAssign, if_neg hq]
      rw [show assignedValues (q :: setAssign m k v) = q.2 :: assignedValues (setAssign m k v)
        from rfl, List.nodup_cons]
      refine ⟨fun hmem => ?_, ih hkeys.2 hvals.2 hv.2⟩
      rcases val_mem_setAssign m k v q.2 hmem with h' | h'
      · exact hv.1 h'.symm
      · exact hvals.1 h'

theorem noSelf_setAssign (m : List (Int × Int)) (k v : Int)
    (hm : ∀ p ∈ m, p.1 ≠ p.2) (hkv : k ≠ v) :
    ∀ p ∈ setAssign m k v, p.1 ≠ p.2 := by
  intro p hp
  rcases mem_setAssign m k v p hp with h | h
  · rw [h]; exact hkv
  · exact hm p h

theorem drawStep_invariant (employees : List Employee) (m : List (Int × Int))
    (d : Int) (r : Nat)
    (h1 : (m.map Prod.fst).Nodup) (h2 : (assignedValues m).Nodup)
    (h3 : ∀ p ∈ m, p.1 ≠ p.2) :
    ((drawStep employees m d r).map Prod.fst).Nodup ∧
    (assignedValues (drawStep employees m d r)).Nodup ∧
    (∀ p ∈ drawStep employees m d r, p.1 ≠ p.2) := by
  by_cases hpool : computePool employees m d = []
  · rw [drawStep, if_pos (by simp [hpool])]
    exact ⟨h1, h2, h3⟩
  · obtain ⟨t, heq, htd, htv⟩ := drawStep_fresh employees m d r hpool
    rw [heq]
    exact ⟨keys_setAssign_nodup m d t h1, vals_setAssign_nodup m d t h1 h2 htv,
      noSelf_setAssign m d t h3 (Ne.symm htd)⟩

theorem runDraws_invariant (employees : List Employee) (ds : List (Int × Nat)) :
    ∀ (m0 : List (Int × Int)),
      (m0.map Prod.fst).Nodup → (assignedValues m0).Nodup → (∀ p ∈ m0, p.1 ≠ p.2) →
      ((runDraws employees m0 ds).map Prod.fst).Nodup ∧
      (assignedValues (runDraws employees m0 ds)).Nodup ∧
      (∀ p ∈ runDraws employees m0 ds, p.1 ≠ p.2) := by
  induction ds with
  | nil => intro m0 h1 h2 h3; exact ⟨h1, h2, h3⟩
  | cons dr ds ih =>
    intro m0 h1 h2 h3
    obtain ⟨g1, g2, g3⟩ := drawStep_invariant employees m0 dr.1 dr.2 h1 h2 h3
    exact ih (drawStep employees m0 dr.1 dr.2) g1 g2 g3

/-- C2: along every sequence of individual draws, each successful draw commits
a target that is neither the drawer itself nor any value the assignment map
held when the draw's pool was computed; consequently, starting from any
well-formed map (unique keys, target values all distinct, no self-assignment),
no member ever becomes the target of two different drawers and no member is
ever its own target. -/
theorem individualDraw_no_self_no_reuse (employees : List Employee)
    (m0 : List (Int × Int)) :
    (∀ (pre : List (Int × Nat)) (d : Int) (r : Nat),
      computePool employees (runDraws employees m0 pre) d ≠ [] →
      ∃ t, drawStep employees (runDraws employees m0 pre) d r =
          setAssign (runDraws employees m0 pre) d t ∧ t ≠ d ∧
          t ∉ assignedValues (runDraws employees m0 pre)) ∧
    (∀ ds : List (Int × Nat),
      (m0.map Prod.fst).Nodup → (assignedValues m0).Nodup → (∀ p ∈ m0, p.1 ≠ p.2) →
      (assignedValues (runDraws employees m0 ds)).Nodup ∧
      (∀ p ∈ runDraws employees m0 ds, p.1 ≠ p.2)) := by
  constructor
  · intro pre d r hpool
    exact drawStep_fresh employees (runDraws employees m0 pre) d r hpool
  · intro ds h1 h2 h3
    obtain ⟨-, g2, g3⟩ := runDraws_invariant employees ds m0 h1 h2 h3
    exact ⟨g2, g3⟩

/-- Witness for the individual-draw theorem: a concrete 2-member roster, the
empty starting map, and one draw for member 1. -/
theorem individualDraw_no_self_no_reuse_witness :
    (computePool [⟨1, "E1", "A", ""⟩, ⟨2, "E2", "B", ""⟩]
        (runDraws [⟨1, "E1", "A", ""⟩, ⟨2, "E2", "B", ""⟩] [] []) 1 ≠ []) ∧
    (∃ t, drawStep [⟨1, "E1", "A", ""⟩, ⟨2, "E2", "B", ""⟩]
        (runDraws [⟨1, "E1", "A", ""⟩, ⟨2, "E2", "B", ""⟩] [] []) 1 0 =
          setAssign (runDraws [⟨1, "E1", "A", ""⟩, ⟨2, "E2", "B", ""⟩] [] []) 1 t ∧
        t ≠ 1 ∧
        t ∉ assignedValues (runDraws [⟨1, "E1", "A", ""⟩, ⟨2, "E2", "B", ""⟩] [] [])) ∧
    ((assignedValues (runDraws [⟨1, "E1", "A", ""⟩, ⟨2, "E2", "B", ""⟩] [] [(1, 0)])).Nodup ∧
      (∀ p ∈ runDraws [⟨1, "E1", "A", ""⟩, ⟨2, "E2", "B", ""⟩] [] [(1, 0)], p.1 ≠ p.2)) :=
  ⟨by decide,
   (individualDraw_no_self_no_reuse [⟨1, "E1", "A", ""⟩, ⟨2, "E2", "B", ""⟩] []).1
     [] 1 0 (by decide),
   (individualDraw_no_self_no_reuse [⟨1, "E1", "A", ""⟩, ⟨2, "E2", "B", ""⟩] []).2
     [(1, 0)] (by simp) (by simp [assignedValues]) (by simp)⟩

/-- C8 amended: there is no presence re-validation at commit time.  For any
two distinct members, starting an individual draw for the first, deleting that
drawer while the selection is pending, and then committing the selection still
writes the stale `drawer ↦ candidate` entry into the assignment map, although
the drawer is no longer in the roster; no `StaleDraw`-style failure exists. -/
theorem slotSelect_no_revalidation (e1 e2 : Employee) (i r : Nat)
    (h : e1.id ≠ e2.id) :
    (slotSelectCommit (handleDelete (handleIndividualDraw
        ⟨[e1, e2], [], none⟩ e1.id) e1.id) i r).assignments = [(e1.id, e2.id)] ∧
    e1.id ∉ ((slotSelectCommit (handleDelete (handleIndividualDraw
        ⟨[e1, e2], [], none⟩ e1.id) e1.id) i r).employees.map Employee.id) := by
  have hne : (e2.id != e1.id) = true := by simp [Ne.symm h]
  have hpool : computePool [e1, e2] [] e1.id = [e2] := by
    simp [computePool, assignedValues, List.filter, hne]
  have hstart : handleIndividualDraw ⟨[e1, e2], [], none⟩ e1.id =
      ⟨[e1, e2], [], some ⟨e1, [e2]⟩⟩ := by
    rw [handleIndividualDraw]
    simp [hpool]
  have hdel : handleDelete (⟨[e1, e2], [], some ⟨e1, [e2]⟩⟩ : AppState) e1.id =
      ⟨[e2], [], some ⟨e1, [e2]⟩⟩ := by
    simp [handleDelete, removeAssignmentsFor, List.filter, hne]
  rw [hstart, hdel]
  constructor
  · simp [slotSelectCommit, handleSlotSelect, setAssign, List.getD, Nat.mod_one]
  · simpa [slotSelectCommit] using h

/-- Witness for the no-revalidation theorem at a concrete roster. -/
theorem slotSelect_no_revalidation_witness :
    ((⟨1, "E1", "A", ""⟩ : Employee).id ≠ (⟨2, "E2", "B", ""⟩ : Employee).id) ∧
    ((slotSelectCommit (handleDelete (handleIndividualDraw
        ⟨[⟨1, "E1", "A", ""⟩, ⟨2, "E2", "B", ""⟩], [], none⟩ 1) 1) 0 0).assignments
        = [(1, 2)] ∧
      (1 : Int) ∉ ((slotSelectCommit (handleDelete (handleIndividualDraw
        ⟨[⟨1, "E1", "A", ""⟩, ⟨2, "E2", "B", ""⟩], [], none⟩ 1) 1) 0 0).employees.map
          Employee.id)) :=
  ⟨by decide, slotSelect_no_revalidation ⟨1, "E1", "A", ""⟩ ⟨2, "E2", "B", ""⟩ 0 0 (by decide)⟩

theorem importFold_append (ex : List String) (ys : List Row) :
    ∀ (xs : List Row) (idx : Nat) (st : ImpState),
      importFold ex idx st (xs ++ ys) =
        importFold ex (idx + xs.length) (importFold ex idx st xs) ys := by
  intro xs
  induction xs with
  | nil => intro idx st; simp [importFold]
  | cons x xs ih =>
    intro idx st
    rw [List.cons_append, importFold, importFold, ih]
    have : idx + 1 + xs.length = idx + (x :: xs).length := by
      simp [List.length_cons]
      omega
    rw [this]

theorem importStep_duplicates_extend (ex : List String) (idx : Nat) (st : ImpState)
    (r : Row) : ∃ l, (importStep ex idx st r).duplicates = st.duplicates ++ l := by
  rw [importStep]
  by_cases h1 : jsTrim r.empnid = "" || jsTrim r.name = ""
  · rw [if_pos h1]; exact ⟨[], by simp⟩
  · rw [if_neg h1]
    by_cases h2 : st.seen.contains (jsToLower (jsTrim r.empnid))
    · rw [if_pos h2]; exact ⟨_, rfl⟩
    · rw [if_neg h2]
      by_cases h3 : ex.contains (jsToLower (jsTrim r.empnid))
      · rw [if_pos h3]; exact ⟨_, rfl⟩
      · rw [if_neg h3]; exact ⟨[], by simp⟩

theorem importStep_accepted_extend (ex : List String) (idx : Nat) (st : ImpState)
    (r : Row) : ∃ l, (importStep ex idx st r).accepted = st.accepted ++ l := by
  rw [importStep]
  by_cases h1 : jsTrim r.empnid = "" || jsTrim r.name = ""
  · rw [if_pos h1]; exact ⟨[], by simp⟩
  · rw [if_neg h1]
    by_cases h2 : st.seen.contains (jsToLower (jsTrim r.empnid))
    · rw [if_pos h2]; exact ⟨[], by simp⟩
    · rw [if_neg h2]
      by_cases h3 : ex.contains (jsToLower (jsTrim r.empnid))
      · rw [if_pos h3]; exact ⟨[], by simp⟩
      · rw [if_neg h3]; exact ⟨_, rfl⟩

theorem importFold_duplicates_extend (ex : List String) :
    ∀ (rs : List Row) (idx : Nat) (st : ImpState),
      ∃ l, (importFold ex idx st rs).duplicates = st.duplicates ++ l := by
  intro rs
  induction rs with
  | nil => intro idx st; exact ⟨[], by simp [importFold]⟩
  | cons r rs ih =>
    intro idx st
    obtain ⟨l1, hl1⟩ := importStep_duplicates_extend ex idx st r
    obtain ⟨l2, hl2⟩ := ih (idx + 1) (importStep ex idx st r)
    exact ⟨l1 ++ l2, by rw [importFold, hl2, hl1, List.append_assoc]⟩

theorem importFold_accepted_extend (ex : List String) :
    ∀ (rs : List Row) (idx : Nat) (st : ImpState),
      ∃ l, (importFold ex idx st rs).accepted = st.accepted ++ l := by
  intro rs
  induction rs with
  | nil => intro idx st; exact ⟨[], by simp [importFold]⟩
  | cons r rs ih =>
    intro idx st
    obtain ⟨l1, hl1⟩ := importStep_accepted_extend ex idx st r
    obtain ⟨l2, hl2⟩ := ih (idx + 1) (importStep ex idx st r)
    exact ⟨l1 ++ l2, by rw [importFold, hl2, hl1, List.append_assoc]⟩

theorem importStep_seen_inv (ex : List String) (idx : Nat) (st : ImpState) (r : Row)
    (h : ∀ s, s ∈ st.seen ↔ ∃ a ∈ st.accepted, jsToLower a.empnid = s) :
    ∀ s, s ∈ (importStep ex idx st r).seen ↔
      ∃ a ∈ (importStep ex idx st r).accepted, jsToLower a.empnid = s := by
  intro s
  rw [importStep]
  by_cases h1 : jsTrim r.empnid = "" || jsTrim r.name = ""
  · rw [if_pos h1]; exact h s
  · rw [if_neg h1]
    by_cases h2 : st.seen.contains (jsToLower (jsTrim r.empnid))
    · rw [if_pos h2]; exact h s
    · rw [if_neg h2]
      by_cases h3 : ex.contains (jsToLower (jsTrim r.empnid))
      · rw [if_pos h3]; exact h s
      · rw [if_neg h3]
        simp only [List.mem_append, List.mem_singleton, h s]
        constructor
        · rintro (⟨a, ha, rfl⟩ | rfl)
          · exact ⟨a, Or.inl ha, rfl⟩
          · exact ⟨⟨st.curId + 1, jsTrim r.empnid, jsTrim r.name, jsTrim r.interests⟩,
              Or.inr rfl, rfl⟩
        · rintro ⟨a, ha | rfl, rfl⟩
          · exact Or.inl ⟨a, ha, rfl⟩
          · exact Or.inr rfl

theorem importFold_seen_inv (ex : List String) :
    ∀ (rs : List Row) (idx : Nat) (st : ImpState),
      (∀ s, s ∈ st.seen ↔ ∃ a ∈ st.accepted, jsToLower a.empnid = s) →
      ∀ s, s ∈ (importFold ex idx st rs).seen ↔
        ∃ a ∈ (importFold ex idx st rs).accepted, jsToLower a.empnid = s := by
  intro rs
  induction rs with
  | nil => intro idx st h; exact h
  | cons r rs ih =>
    intro idx st h
    exact ih (idx + 1) (importStep ex idx st r) (importStep_seen_inv ex idx st r h)

theorem string_contains_iff (l : List String) (s : String) :
    l.contains s = true ↔ s ∈ l := by
  simp [List.contains, List.elem_iff]

/-- C6: a candidate row with non-empty trimmed identifier and name is checked
case-insensitively first against the identifiers accepted earlier in the same
batch (rejected with the in-file duplicate reason), then against the existing
roster (rejected with the in-system duplicate reason), and is otherwise
accepted with its trimmed fields; the reported row number is the row's
1-based sheet position (header row 1, first data row 2). -/
theorem import_rejection_reasons (employees : List Employee) (lastId : Int)
    (rows : List Row) (k : Nat) (hk : k < rows.length)
    (hid : jsTrim (rows.get ⟨k, hk⟩).empnid ≠ "")
    (hnm : jsTrim (rows.get ⟨k, hk⟩).name ≠ "") :
    ((∃ a ∈ (importRows employees lastId (rows.take k)).accepted,
        jsToLower a.empnid = jsToLower (jsTrim (rows.get ⟨k, hk⟩).empnid)) →
      (⟨k + 2, jsTrim (rows.get ⟨k, hk⟩).empnid, jsTrim (rows.get ⟨k, hk⟩).name,
        inFileReason⟩ : Dup) ∈ (importRows employees lastId rows).duplicates) ∧
    ((∀ a ∈ (importRows employees lastId (rows.take k)).accepted,
        jsToLower a.empnid ≠ jsToLower (jsTrim (rows.get ⟨k, hk⟩).empnid)) →
      (∃ e ∈ employees, jsToLower e.empnid = jsToLower (jsTrim (rows.get ⟨k, hk⟩).empnid)) →
      (⟨k + 2, jsTrim (rows.get ⟨k, hk⟩).empnid, jsTrim (rows.get ⟨k, hk⟩).name,
        inSystemReason⟩ : Dup) ∈ (importRows employees lastId rows).duplicates) ∧
    ((∀ a ∈ (importRows employees lastId (rows.take k)).accepted,
        jsToLower a.empnid ≠ jsToLower (jsTrim (rows.get ⟨k, hk⟩).empnid)) →
      (∀ e ∈ employees, jsToLower e.empnid ≠ jsToLower (jsTrim (rows.get ⟨k, hk⟩).empnid)) →
      ∃ a ∈ (importRows employees lastId rows).accepted,
        a.empnid = jsTrim (rows.get ⟨k, hk⟩).empnid ∧
        a.name = jsTrim (rows.get ⟨k, hk⟩).name) := by
  have hdecomp : rows = rows.take k ++ (rows.get ⟨k, hk⟩ :: rows.drop (k + 1)) := by
    conv_lhs => rw [← List.take_append_drop k rows]
    rw [List.drop_eq_get_cons hk]
  have hlen : (rows.take k).length = k := by
    rw [List.length_take]
    omega
  have hmain : importRows employees lastId rows =
      importFold (employees.map fun e => jsToLower e.empnid) (1 + k + 1)
        (importStep (employees.map fun e => jsToLower e.empnid) (1 + k)
          (importRows employees lastId (rows.take k)) (rows.get ⟨k, hk⟩))
        (rows.drop (k + 1)) := by
    conv_lhs => rw [importRows, hdecomp]
    rw [importFold_append, hlen]
    rw [show importFold (employees.map fun e => jsToLower e.empnid) (1 + k)
        (importFold (employees.map fun e => jsToLower e.empnid) 1
          ⟨[], lastId, [], []⟩ (rows.take k))
        (rows.get ⟨k, hk⟩ :: rows.drop (k + 1)) =
      importFold (employees.map fun e => jsToLower e.empnid) (1 + k + 1)
        (importStep (employees.map fun e => jsToLower e.empnid) (1 + k)
          (importFold (employees.map fun e => jsToLower e.empnid) 1
            ⟨[], lastId, [], []⟩ (rows.take k))
          (rows.get ⟨k, hk⟩))
        (rows.drop (k + 1)) from rfl]
    rfl
  have hseen : ∀ s, s ∈ (importRows employees lastId (rows.take k)).seen ↔
      ∃ a ∈ (importRows employees lastId (rows.take k)).accepted, jsToLower a.empnid = s := by
    rw [importRows]
    exact importFold_seen_inv _ _ 1 ⟨[], lastId, [], []⟩ (by simp)
  have hskip : ¬ ((jsTrim (rows.get ⟨k, hk⟩).empnid = "" : Bool) ||
      (jsTrim (rows.get ⟨k, hk⟩).name = "" : Bool)) = true := by
    simp only [Bool.or_eq_true, decide_eq_true_eq, not_or]
    exact ⟨hid, hnm⟩
  have hrow : (1 + k) + 1 = k + 2 := by omega
  refine ⟨?_, ?_, ?_⟩
  · intro hex
    have hcont : (importRows employees lastId (rows.take k)).seen.contains
        (jsToLower (jsTrim (rows.get ⟨k, hk⟩).empnid)) = true := by
      rcases hex with ⟨a, ha, haeq⟩
      exact (string_contains_iff _ _).2 ((hseen _).2 ⟨a, ha, haeq⟩)
    have hstep : (importStep (employees.map fun e => jsToLower e.empnid) (1 + k)
        (importRows employees lastId (rows.take k)) (rows.get ⟨k, hk⟩)).duplicates =
        (importRows employees lastId (rows.take k)).duplicates ++
          [⟨k + 2, jsTrim (rows.get ⟨k, hk⟩).empnid, jsTrim (rows.get ⟨k, hk⟩).name,
            inFileReason⟩] := by
      rw [importStep, if_neg hskip, if_pos hcont, hrow]
    rw [hmain]
    obtain ⟨l, hl⟩ := importFold_duplicates_extend
      (employees.map fun e => jsToLower e.empnid) (rows.drop (k + 1)) (1 + k + 1)
      (importStep (employees.map fun e => jsToLower e.empnid) (1 + k)
        (importRows employees lastId (rows.take k)) (rows.get ⟨k, hk⟩))
    rw [hl, hstep]
    simp
  · intro hnex hsys
    have hcont : (importRows employees lastId (rows.take k)).seen.contains
        (jsToLower (jsTrim (rows.get ⟨k, hk⟩).empnid)) = false := by
      rw [← Bool.not_eq_true]
      intro hc
      rcases (hseen _).1 ((string_contains_iff _ _).1 hc) with ⟨a, ha, haeq⟩
      exact hnex a ha haeq
    have hsys' : (employees.map fun e => jsToLower e.empnid).contains
        (jsToLower (jsTrim (rows.get ⟨k, hk⟩).empnid)) = true := by
      rcases hsys with ⟨e, he, heq⟩
      exact (string_contains_iff _ _).2 (List.mem_map.2 ⟨e, he, heq⟩)
    have hstep : (importStep (employees.map fun e => jsToLower e.empnid) (1 + k)
        (importRows employees lastId (rows.take k)) (rows.get ⟨k, hk⟩)).duplicates =
        (importRows employees lastId (rows.take k)).duplicates ++
          [⟨k + 2, jsTrim (rows.get ⟨k, hk⟩).empnid, jsTrim (rows.get ⟨k, hk⟩).name,
            inSystemReason⟩] := by
      rw [importStep, if_neg hskip, if_neg (by rw [hcont]; exact Bool.false_ne_true), if_pos hsys', hrow]
    rw [hmain]
    obtain ⟨l, hl⟩ := importFold_duplicates_extend
      (employees.map fun e => jsToLower e.empnid) (rows.drop (k + 1)) (1 + k + 1)
      (importStep (employees.map fun e => jsToLower e.empnid) (1 + k)
        (importRows employees lastId (rows.take k)) (rows.get ⟨k, hk⟩))
    rw [hl, hstep]
    simp
  · intro hnex hnsys
    have hcont : (importRows employees lastId (rows.take k)).seen.contains
        (jsToLower (jsTrim (rows.get ⟨k, hk⟩).empnid)) = false := by
      rw [← Bool.not_eq_true]
      intro hc
      rcases (hseen _).1 ((string_contains_iff _ _).1 hc) with ⟨a, ha, haeq⟩
      exact hnex a ha haeq
    have hnsys' : (employees.map fun e => jsToLower e.empnid).contains
        (jsToLower (jsTrim (rows.get ⟨k, hk⟩).empnid)) = false := by
      rw [← Bool.not_eq_true]
      intro hc
      rcases List.mem_map.1 ((string_contains_iff _ _).1 hc) with ⟨e, he, heq⟩
      exact hnsys e he heq
    have hstep : (importStep (employees.map fun e => jsToLower e.empnid) (1 + k)
        (importRows employees lastId (rows.take k)) (rows.get ⟨k, hk⟩)).accepted =
        (importRows employees lastId (rows.take k)).accepted ++
          [⟨(importRows employees lastId (rows.take k)).curId + 1,
            jsTrim (rows.get ⟨k, hk⟩).empnid, jsTrim (rows.get ⟨k, hk⟩).name,
            jsTrim (rows.get ⟨k, hk⟩).interests⟩] := by
      rw [importStep, if_neg hskip, if_neg (by rw [hcont]; exact Bool.false_ne_true), if_neg (by rw [hnsys']; exact Bool.false_ne_true)]
    rw [hmain]
    obtain ⟨l, hl⟩ := importFold_accepted_extend
      (employees.map fun e => jsToLower e.empnid) (rows.drop (k + 1)) (1 + k + 1)
      (importStep (employees.map fun e => jsToLower e.empnid) (1 + k)
        (importRows employees lastId (rows.take k)) (rows.get ⟨k, hk⟩))
    rw [hl, hstep]
    refine ⟨⟨(importRows employees lastId (rows.take k)).curId + 1,
      jsTrim (rows.get ⟨k, hk⟩).empnid, jsTrim (rows.get ⟨k, hk⟩).name,
      jsTrim (rows.get ⟨k, hk⟩).interests⟩, ?_, rfl, rfl⟩
    simp

/-- Witness: the spec's concrete example batch `E1/A, e1/B, E2/C` against an
empty roster accepts `E1` and `E2` and rejects the second row (sheet row 3)
as an in-file duplicate. -/
theorem import_rejection_reasons_witness :
    (1 < ([⟨"E1", "A", ""⟩, ⟨"e1", "B", ""⟩, ⟨"E2", "C", ""⟩] : List Row).length) ∧
    (∃ a ∈ (importRows [] 0 (([⟨"E1", "A", ""⟩, ⟨"e1", "B", ""⟩, ⟨"E2", "C", ""⟩] :
        List Row).take 1)).accepted,
      jsToLower a.empnid = jsToLower (jsTrim "e1")) ∧
    (⟨3, "e1", "B", inFileReason⟩ : Dup) ∈
      (importRows [] 0 [⟨"E1", "A", ""⟩, ⟨"e1", "B", ""⟩, ⟨"E2", "C", ""⟩]).duplicates ∧
    importRows [] 0 [⟨"E1", "A", ""⟩, ⟨"e1", "B", ""⟩, ⟨"E2", "C", ""⟩] =
      ⟨["e1", "e2"], 2, [⟨1, "E1", "A", ""⟩, ⟨2, "E2", "C", ""⟩],
        [⟨3, "e1", "B", inFileReason⟩]⟩ := by
  refine ⟨by decide, by decide, ?_, by decide⟩
  have h := (import_rejection_reasons [] 0
    [⟨"E1", "A", ""⟩, ⟨"e1", "B", ""⟩, ⟨"E2", "C", ""⟩] 1 (by decide) (by decide)
    (by decide)).1 (by decide)
  exact h

theorem jsTrim_empty : jsTrim "" = "" := rfl

theorem importFold_accepted_clean (ex : List String) :
    ∀ (rs : List Row) (idx : Nat) (st : ImpState),
      (∀ a ∈ st.accepted, a.empnid ≠ "" ∧ jsTrim a.empnid = a.empnid ∧
        a.name ≠ "" ∧ jsTrim a.name = a.name) →
      ∀ a ∈ (importFold ex idx st rs).accepted,
        a.empnid ≠ "" ∧ jsTrim a.empnid = a.empnid ∧
        a.name ≠ "" ∧ jsTrim a.name = a.name := by
  intro rs
  induction rs with
  | nil => intro idx st h; exact h
  | cons r rs ih =>
    intro idx st h
    rw [importFold]
    refine ih (idx + 1) (importStep ex idx st r) ?_
    intro a ha
    rw [importStep] at ha
    by_cases h1 : jsTrim r.empnid = "" || jsTrim r.name = ""
    · rw [if_pos h1] at ha; exact h a ha
    · rw [if_neg h1] at ha
      have h1' : jsTrim r.empnid ≠ "" ∧ jsTrim r.name ≠ "" := by
        constructor <;> intro hc <;> exact h1 (by simp [hc])
      by_cases h2 : st.seen.contains (jsToLower (jsTrim r.empnid))
      · rw [if_pos h2] at ha; exact h a ha
      · rw [if_neg h2] at ha
        by_cases h3 : ex.contains (jsToLower (jsTrim r.empnid))
        · rw [if_pos h3] at ha; exact h a ha
        · rw [if_neg h3] at ha
          rcases List.mem_append.1 ha with hmem | hmem
          · exact h a hmem
          · rcases List.mem_singleton.1 hmem with rfl
            exact ⟨h1'.1, jsTrim_idem _, h1'.2, jsTrim_idem _⟩

theorem loadPass_fields_clean :
    ∀ (rs : List RawEmp) (seen : List String), ∀ e ∈ (loadPass seen rs).1,
      jsTrim e.empnid = e.empnid ∧ jsTrim e.name = e.name ∧
      jsTrim e.interests = e.interests ∧ e.id ≠ 0 := by
  intro rs
  induction rs with
  | nil => intro seen e he; simp [loadPass] at he
  | cons r rs ih =>
    intro seen e he
    rcases r with ⟨rid, rcode, rname, rint⟩
    rcases rid with _ | n
    · exact ih seen e (by simpa [loadPass] using he)
    rcases rcode with _ | code
    · exact ih seen e (by simpa [loadPass] using he)
    rcases rname with _ | nm
    · exact ih seen e (by simpa [loadPass] using he)
    simp only [loadPass] at he
    by_cases hc : n ≠ 0 ∧ code ≠ "" ∧ nm ≠ "" ∧ ¬ seen.contains (jsToLower code)
    · rw [if_pos hc] at he
      rcases List.mem_cons.1 he with rfl | hmem
      · refine ⟨jsTrim_idem _, jsTrim_idem _, ?_, hc.1⟩
        rcases rint with _ | s
        · rfl
        · by_cases hs : s ≠ ""
          · simp only [if_pos hs]
            exact jsTrim_idem _
          · simp only [if_neg hs]
            rfl
      · exact ih (jsToLower code :: seen) e hmem
    · rw [if_neg hc] at he
      exact ih seen e he

theorem insertById_perm (e : Employee) (l : List Employee) :
    (insertById e l).Perm (e :: l) := by
  induction l with
  | nil => exact List.Perm.refl _
  | cons x xs ih =>
    rw [insertById]
    by_cases h : x.id < e.id
    · rw [if_pos h]
      exact (ih.cons x).trans (List.Perm.swap e x xs)
    · rw [if_neg h]

theorem sortById_perm (l : List Employee) : (sortById l).Perm l := by
  induction l with
  | nil => exact List.Perm.refl _
  | cons x xs ih =>
    rw [sortById]
    exact (insertById_perm x (sortById xs)).trans (ih.cons x)

theorem validateForm_nonempty (employees : List Employee) (editingId : Option Int)
    (f : FormData) (h : validateForm employees editingId f = true) :
    jsTrim f.empnid ≠ "" ∧ jsTrim f.name ≠ "" := by
  rw [validateForm.eq_def] at h
  by_cases h1 : jsTrim f.empnid = ""
  · rw [if_pos h1] at h; cases h
  · by_cases h2 : jsTrim f.name = ""
    · rw [if_neg h1, if_pos h2] at h; cases h
    · exact ⟨h1, h2⟩

/-- C10 amended: every member stored through the form create path, the form
update path, or the spreadsheet import path has a non-empty and fully-trimmed
identifier and name; the snapshot-load path guarantees only that the stored
fields are trimmed (its emptiness check happens before trimming, so
whitespace-only raw fields survive as empty strings). -/
theorem stored_members_trimmed_nonempty :
    (∀ (employees : List Employee) (lastId : Int) (f : FormData)
        (es : List Employee) (c : Int),
      handleCreate employees lastId f = some (es, c) →
      ∀ e ∈ es, e ∈ employees ∨
        (e.empnid ≠ "" ∧ jsTrim e.empnid = e.empnid ∧
          e.name ≠ "" ∧ jsTrim e.name = e.name)) ∧
    (∀ (employees : List Employee) (eid : Int) (f : FormData) (es : List Employee),
      handleUpdate employees eid f = some es →
      ∀ e ∈ es, e ∈ employees ∨
        (e.empnid ≠ "" ∧ jsTrim e.empnid = e.empnid ∧
          e.name ≠ "" ∧ jsTrim e.name = e.name)) ∧
    (∀ (employees : List Employee) (lastId : Int) (rows : List Row),
      ∀ a ∈ (importRows employees lastId rows).accepted,
        a.empnid ≠ "" ∧ jsTrim a.empnid = a.empnid ∧
        a.name ≠ "" ∧ jsTrim a.name = a.name) ∧
    (∀ (records : List RawEmp) (k : Int),
      ∀ e ∈ (loadSnapshot records k).1,
        jsTrim e.empnid = e.empnid ∧ jsTrim e.name = e.name) := by
  refine ⟨?_, ?_, ?_, ?_⟩
  · intro employees lastId f es c h e he
    simp only [handleCreate] at h
    by_cases hv : validateForm employees none f = true
    · rw [if_pos hv] at h
      by_cases hdup :
          (employees.any fun x => jsToLower x.empnid == jsToLower (jsTrim f.empnid)) = true
      · rw [if_pos hdup] at h; cases h
      · rw [if_neg hdup] at h
        simp only [Option.some.injEq, Prod.mk.injEq] at h
        obtain ⟨hes, -⟩ := h
        subst hes
        rcases List.mem_append.1 he with hmem | hmem
        · exact Or.inl hmem
        · rcases List.mem_singleton.1 hmem with rfl
          have hne := validateForm_nonempty employees none f hv
          exact Or.inr ⟨hne.1, jsTrim_idem _, hne.2, jsTrim_idem _⟩
    · rw [if_neg hv] at h; cases h
  · intro employees eid f es h e he
    simp only [handleUpdate] at h
    by_cases hv : validateForm employees (some eid) f = true
    · rw [if_pos hv] at h
      rcases hfind : employees.find? (fun x => x.id == eid) with _ | old
      · rw [hfind] at h
        exact Option.noConfusion h
      · rw [hfind] at h
        have h2 : (if (employees.any fun x =>
              jsToLower x.empnid == jsToLower (jsTrim f.empnid) && x.id != eid) = true
            then none
            else some (employees.map fun x =>
              if (x.id == eid) = true then
                (⟨old.id, jsTrim f.empnid, jsTrim f.name, jsTrim f.interests⟩ : Employee)
              else x)) = some es := h
        by_cases hdup : (employees.any fun x =>
            jsToLower x.empnid == jsToLower (jsTrim f.empnid) && x.id != eid) = true
        · rw [if_pos hdup] at h2; cases h2
        · rw [if_neg hdup] at h2
          simp only [Option.some.injEq] at h2
          subst h2
          rcases List.mem_map.1 he with ⟨x, hx, hxe⟩
          by_cases hxid : (x.id == eid) = true
          · rw [if_pos hxid] at hxe
            have hne := validateForm_nonempty employees (some eid) f hv
            exact Or.inr (hxe ▸ ⟨hne.1, jsTrim_idem _, hne.2, jsTrim_idem _⟩)
          · rw [if_neg hxid] at hxe
            exact Or.inl (hxe ▸ hx)
    · rw [if_neg hv] at h; cases h
  · intro employees lastId rows a ha
    exact importFold_accepted_clean _ rows 1 ⟨[], lastId, [], []⟩ (by simp) a ha
  · intro records k e he
    simp only [loadSnapshot] at he
    have hmem := ((sortById_perm (loadPass [] records).1).mem_iff).1 he
    have hclean := loadPass_fields_clean records [] e hmem
    exact ⟨hclean.1, hclean.2.1⟩

/-- Witness: creating a member from padded form input stores the trimmed
non-empty fields. -/
theorem stored_members_trimmed_nonempty_witness :
    handleCreate [] 0 ⟨" E1 ", " Alice ", ""⟩ = some ([⟨1, "E1", "Alice", ""⟩], 1) ∧
    (∀ e ∈ ([⟨1, "E1", "Alice", ""⟩] : List Employee), e ∈ ([] : List Employee) ∨
      (e.empnid ≠ "" ∧ jsTrim e.empnid = e.empnid ∧
        e.name ≠ "" ∧ jsTrim e.name = e.name)) :=
  ⟨by decide, stored_members_trimmed_nonempty.1 [] 0 ⟨" E1 ", " Alice ", ""⟩
    [⟨1, "E1", "Alice", ""⟩] 1 (by decide)⟩

theorem insertById_head? (e : Employee) (l : List Employee) :
    (insertById e l).head? = some e ∨ (insertById e l).head? = l.head? := by
  cases l with
  | nil => exact Or.inl rfl
  | cons x xs =>
    rw [insertById]
    by_cases h : x.id < e.id
    · rw [if_pos h]; exact Or.inr rfl
    · rw [if_neg h]; exact Or.inl rfl

theorem chain'_insertById (e : Employee) (l : List Employee)
    (h : List.Chain' (fun a b => a.id ≤ b.id) l) :
    List.Chain' (fun a b => a.id ≤ b.id) (insertById e l) := by
  induction l with
  | nil => simp [insertById]
  | cons x xs ih =>
    rw [insertById]
    rw [List.chain'_cons'] at h
    by_cases hlt : x.id < e.id
    · rw [if_pos hlt, List.chain'_cons']
      refine ⟨?_, ih h.2⟩
      intro y hy
      rcases insertById_head? e xs with hh | hh
      · rw [hh] at hy
        cases hy
        exact le_of_lt hlt
      · rw [hh] at hy
        exact h.1 y hy
    · rw [if_neg hlt, List.chain'_cons']
      refine ⟨?_, List.chain'_cons'.2 h⟩
      intro y hy
      cases hy
      exact le_of_not_lt hlt

theorem chain'_sortById (l : List Employee) :
    List.Chain' (fun a b => a.id ≤ b.id) (sortById l) := by
  induction l with
  | nil => simp [sortById]
  | cons x xs ih => exact chain'_insertById x (sortById xs) ih

theorem sortById_eq_of_chain' (l : List Employee)
    (h : List.Chain' (fun a b => a.id ≤ b.id) l) : sortById l = l := by
  induction l with
  | nil => rfl
  | cons x xs ih =>
    rw [sortById, ih (List.Chain'.tail h)]
    cases xs with
    | nil => rfl
    | cons y ys =>
      rw [insertById]
      rw [if_neg (not_lt.2 (List.chain'_cons.1 h).1)]

theorem foldMax_insertById (e : Employee) (l : List Employee) :
    foldMax (insertById e l) = max e.id (foldMax l) := by
  induction l with
  | nil => rfl
  | cons x xs ih =>
    rw [insertById]
    by_cases h : x.id < e.id
    · rw [if_pos h]
      show max x.id (foldMax (insertById e xs)) = max e.id (max x.id (foldMax xs))
      rw [ih]
      exact max_left_comm x.id e.id (foldMax xs)
    · rw [if_neg h]
      rfl

theorem foldMax_sortById (l : List Employee) : foldMax (sortById l) = foldMax l := by
  induction l with
  | nil => rfl
  | cons x xs ih =>
    rw [sortById, foldMax_insertById, ih]
    rfl

theorem loadPass_snd (rs : List RawEmp) :
    ∀ seen, (loadPass seen rs).2 = foldMax (loadPass seen rs).1 := by
  induction rs with
  | nil => intro seen; rfl
  | cons r rs ih =>
    intro seen
    rcases r with ⟨rid, rcode, rname, rint⟩
    rcases rid with _ | n
    · simpa [loadPass] using ih seen
    rcases rcode with _ | code
    · simpa [loadPass] using ih seen
    rcases rname with _ | nm
    · simpa [loadPass] using ih seen
    simp only [loadPass]
    by_cases hc : n ≠ 0 ∧ code ≠ "" ∧ nm ≠ "" ∧ ¬ seen.contains (jsToLower code)
    · rw [if_pos hc]
      show max n (loadPass (jsToLower code :: seen) rs).2 =
        foldMax (_ :: (loadPass (jsToLower code :: seen) rs).1)
      rw [ih (jsToLower code :: seen)]
      rfl
    · rw [if_neg hc]
      exact ih seen

theorem loadPass_map_toRaw :
    ∀ (l : List Employee) (seen : List String),
      (∀ e ∈ l, e.id ≠ 0 ∧ e.empnid ≠ "" ∧ e.name ≠ "" ∧
        jsTrim e.empnid = e.empnid ∧ jsTrim e.name = e.name ∧
        jsTrim e.interests = e.interests) →
      ((l.map fun e => jsToLower e.empnid).Pairwise (· ≠ ·)) →
      (∀ e ∈ l, jsToLower e.empnid ∉ seen) →
      loadPass seen (l.map toRaw) = (l, foldMax l) := by
  intro l
  induction l with
  | nil => intro seen h1 h2 h3; simp [loadPass, foldMax]
  | cons e l ih =>
    intro seen h1 h2 h3
    obtain ⟨hid, hcode, hnm, htc, htn, hti⟩ := h1 e (List.mem_cons_self e l)
    have hcontains : ¬ seen.contains (jsToLower e.empnid) = true := by
      intro hc
      exact h3 e (List.mem_cons_self e l) ((string_contains_iff _ _).1 hc)
    rw [List.map_cons]
    simp only [loadPass, toRaw]
    rw [if_pos ⟨hid, hcode, hnm, hcontains⟩]
    have hpair : (∀ a ∈ l, ¬jsToLower e.empnid = jsToLower a.empnid) ∧
        List.Pairwise (fun x1 x2 => ¬x1 = x2) (l.map fun e => jsToLower e.empnid) := by
      simpa using h2
    have hrest : loadPass (jsToLower e.empnid :: seen) (l.map toRaw) = (l, foldMax l) := by
      apply ih
      · intro x hx
        exact h1 x (List.mem_cons_of_mem e hx)
      · exact hpair.2
      · intro x hx
        rw [List.mem_cons]
        push_neg
        refine ⟨?_, h3 x (List.mem_cons_of_mem e hx)⟩
        intro hEq
        exact hpair.1 x hx hEq.symm
    rw [hrest]
    have hint : (match (some e.interests : Option String) with
        | some s => if s ≠ "" then jsTrim s else ""
        | none => "") = e.interests := by
      show (if e.interests ≠ "" then jsTrim e.interests else "") = e.interests
      by_cases hi : e.interests = ""
      · rw [if_neg (by simp [hi]), hi]
      · rw [if_pos hi, hti]
    rw [Prod.mk.injEq]
    constructor
    · rw [List.cons.injEq]
      refine ⟨?_, rfl⟩
      rw [Employee.mk.injEq]
      exact ⟨rfl, htc, htn, hint⟩
    · rfl

/-- C4 amended: re-running `loadSnapshot` on its own serialized output is a
no-op (same member list, same ordering, same next-id value) provided every
surviving member of the first run has a non-empty identifier and name and the
survivors' lowercased identifiers are pairwise distinct.  Without these side
conditions a second run can drop members, because the first run deduplicates
on the untrimmed identifier and checks emptiness before trimming while it
stores the trimmed fields. -/
theorem loadSnapshot_conditionally_idempotent (records : List RawEmp) (k : Int)
    (hne : ∀ e ∈ (loadSnapshot records k).1, e.empnid ≠ "" ∧ e.name ≠ "")
    (hdist : ((loadSnapshot records k).1.map fun e => jsToLower e.empnid).Pairwise (· ≠ ·)) :
    loadSnapshot ((loadSnapshot records k).1.map toRaw) (loadSnapshot records k).2 =
      loadSnapshot records k := by
  have hout : (loadSnapshot records k).1 = sortById (loadPass [] records).1 := by
    simp only [loadSnapshot]
  have hcdef : (loadSnapshot records k).2 =
      (if (loadPass [] records).2 > k then (loadPass [] records).2 else k) := by
    simp only [loadSnapshot]
  have hclean : ∀ e ∈ (loadSnapshot records k).1,
      e.id ≠ 0 ∧ e.empnid ≠ "" ∧ e.name ≠ "" ∧ jsTrim e.empnid = e.empnid ∧
      jsTrim e.name = e.name ∧ jsTrim e.interests = e.interests := by
    intro e he
    have hm : e ∈ (loadPass [] records).1 := by
      rw [hout] at he
      exact (sortById_perm _).mem_iff.1 he
    obtain ⟨a1, a2, a3, a4⟩ := loadPass_fields_clean records [] e hm
    obtain ⟨b1, b2⟩ := hne e he
    exact ⟨a4, b1, b2, a1, a2, a3⟩
  have hpass : loadPass [] ((loadSnapshot records k).1.map toRaw) =
      ((loadSnapshot records k).1, foldMax (loadSnapshot records k).1) :=
    loadPass_map_toRaw _ [] hclean hdist (by simp)
  have hsorted : sortById (loadSnapshot records k).1 = (loadSnapshot records k).1 := by
    rw [hout]
    exact sortById_eq_of_chain' _ (chain'_sortById _)
  have hmax : foldMax (loadSnapshot records k).1 = (loadPass [] records).2 := by
    rw [hout, foldMax_sortById, ← loadPass_snd]
  have hcle : ¬ (foldMax (loadSnapshot records k).1 > (loadSnapshot records k).2) := by
    rw [hmax, hcdef]
    by_cases hgt : (loadPass [] records).2 > k
    · rw [if_pos hgt]; omega
    · rw [if_neg hgt]; omega
  calc loadSnapshot ((loadSnapshot records k).1.map toRaw) (loadSnapshot records k).2
      = (sortById (loadPass [] ((loadSnapshot records k).1.map toRaw)).1,
          if (loadPass [] ((loadSnapshot records k).1.map toRaw)).2 > (loadSnapshot records k).2
          then (loadPass [] ((loadSnapshot records k).1.map toRaw)).2
          else (loadSnapshot records k).2) := rfl
    _ = (sortById (loadSnapshot records k).1,
          if foldMax (loadSnapshot records k).1 > (loadSnapshot records k).2
          then foldMax (loadSnapshot records k).1 else (loadSnapshot records k).2) := by
          rw [hpass]
    _ = ((loadSnapshot records k).1, (loadSnapshot records k).2) := by
          rw [hsorted, if_neg hcle]
    _ = loadSnapshot records k := rfl

/-- Witness: a clean single-record snapshot reloads to itself. -/
theorem loadSnapshot_conditionally_idempotent_witness :
    (∀ e ∈ (loadSnapshot [⟨some 1, some "E1", some "Alice", none⟩] 0).1,
      e.empnid ≠ "" ∧ e.name ≠ "") ∧
    (((loadSnapshot [⟨some 1, some "E1", some "Alice", none⟩] 0).1.map
        fun e => jsToLower e.empnid).Pairwise (· ≠ ·)) ∧
    loadSnapshot ((loadSnapshot [⟨some 1, some "E1", some "Alice", none⟩] 0).1.map toRaw)
        (loadSnapshot [⟨some 1, some "E1", some "Alice", none⟩] 0).2 =
      loadSnapshot [⟨some 1, some "E1", some "Alice", none⟩] 0 :=
  ⟨by decide, by decide,
   loadSnapshot_conditionally_idempotent [⟨some 1, some "E1", some "Alice", none⟩] 0
     (by decide) (by decide)⟩

/-- Witness for the delete-cascade theorem at a concrete assignment map. -/
theorem delete_cascades_into_assignments_witness :
    (∀ p ∈ removeAssignmentsFor [(1, 2), (2, 1), (3, 2)] 2,
      p.1 ≠ 2 ∧ p.2 ≠ 2 ∧ p ∈ [(1, 2), (2, 1), (3, 2)]) ∧
    (∀ p ∈ ([(1, 2), (2, 1), (3, 2)] : List (Int × Int)),
      p.1 ≠ 2 → p.2 ≠ 2 → p ∈ removeAssignmentsFor [(1, 2), (2, 1), (3, 2)] 2) ∧
    (2 : Int) ∉ (removeAssignmentsFor [(1, 2), (2, 1), (3, 2)] 2).map Prod.fst ∧
    (2 : Int) ∉ assignedValues (removeAssignmentsFor [(1, 2), (2, 1), (3, 2)] 2) :=
  delete_cascades_into_assignments [(1, 2), (2, 1), (3, 2)] 2
